import Mathlib

/-!
Verification of the `walkers` slippy-map engine specification.

The crate root (`src/lib.rs`) declares the modules `map`, `mercator`, `tiles`
and `zoom` and re-exports `Center`, `Map`, `MapMemory`, `screen_to_position`,
`Position`, `PositionExt`, `Tiles`, `Tile`, `TileId` and `Zoom`; the module
bodies themselves are not present in the tree, only the example application
(`examples/myapp.rs`) that calls them.  The definitions below therefore model
those missing modules from the specification, staying as close as possible to
its words, and the example's visible call sites (`Position::new(lon, lat)`,
`position.x()`, `position.y()`, `Center::Exact(position)`,
`Center::MyPosition`, `center_mode.position(my_position)`,
`map_memory.zoom.zoom_in()`, `MapMemory::default()`).
-/

open Real

/-- A geographic position in degrees: `x` is the longitude and `y` the
latitude, matching the example's `Position::new(17.03664, 51.09916)` with
accessors `x()` / `y()`. -/
structure Position where
  x : ℝ
  y : ℝ

theorem Position.ext_xy {p q : Position} (hx : p.x = q.x) (hy : p.y = q.y) : p = q := by
  cases p; cases q; simp_all

/-- Modelled from the spec: `mercator.rs` is absent from `src/`.  Latitude is
clamped to the Mercator-valid range (~±85.05113°) before projecting
(spec §4.1: values outside are saturated to the boundary). -/
noncomputable def clampLat (lat : ℝ) : ℝ := max (-85.05113) (min 85.05113 lat)

/-- Tile side in pixels (spec §4.1: each projected unit is one tile's pixel
width, typically 256). -/
def tileSize : ℕ := 256

/-- Width of the whole map in pixels at a zoom level: `2^zoom` tiles of
`tileSize` pixels each. -/
noncomputable def totalPixels (zoom : ℕ) : ℝ := 2 ^ zoom * tileSize

/-- Modelled from the spec: `mercator.rs` is absent from `src/`.  Standard
Web-Mercator forward projection of longitude/latitude in degrees to the
normalized `[0,1)×[0,1)` plane (spec §4.1), with the latitude clamped first. -/
noncomputable def mercatorNormalized (pos : Position) : ℝ × ℝ :=
  ((1 + (pos.x * (π / 180)) / π) / 2,
   (1 - arsinh (tan (clampLat pos.y * (π / 180))) / π) / 2)

/-- Modelled from the spec: `project(position, zoom)`, the normalized plane
scaled by `2^zoom` tile units in pixels. -/
noncomputable def project (pos : Position) (zoom : ℕ) : ℝ × ℝ :=
  ((mercatorNormalized pos).1 * totalPixels zoom,
   (mercatorNormalized pos).2 * totalPixels zoom)

/-- Modelled from the spec: `screen_offset(position, zoom, reference_position)`,
the difference between the projected point and the projected reference point in
pixel units (spec §4.1). -/
noncomputable def screen_offset (pos : Position) (zoom : ℕ) (ref : Position) : ℝ × ℝ :=
  ((project pos zoom).1 - (project ref zoom).1,
   (project pos zoom).2 - (project ref zoom).2)

/-- Modelled from the spec: `screen_to_position` / `inverse(pixel_offset, zoom,
reference_position)`, the exact inverse of `screen_offset`, translating a
screen offset back into a geographic position (spec §4.1, §6). -/
noncomputable def screen_to_position (offset : ℝ × ℝ) (zoom : ℕ) (ref : Position) : Position :=
  { x := (2 * (((project ref zoom).1 + offset.1) / totalPixels zoom) - 1) * 180,
    y := arctan (sinh ((1 - 2 * (((project ref zoom).2 + offset.2) / totalPixels zoom)) * π))
          * (180 / π) }

theorem totalPixels_pos (zoom : ℕ) : 0 < totalPixels zoom := by
  unfold totalPixels tileSize
  positivity

theorem clampLat_eq_self {lat : ℝ} (h1 : -85.05113 ≤ lat) (h2 : lat ≤ 85.05113) :
    clampLat lat = lat := by
  unfold clampLat
  rw [min_eq_right h2, max_eq_right h1]

theorem clampLat_mem (lat : ℝ) : -85.05113 ≤ clampLat lat ∧ clampLat lat ≤ 85.05113 := by
  unfold clampLat
  constructor
  · exact le_max_left _ _
  · refine max_le (by norm_num) (min_le_left _ _)

theorem clampLat_idem (lat : ℝ) : clampLat (clampLat lat) = clampLat lat :=
  clampLat_eq_self (clampLat_mem lat).1 (clampLat_mem lat).2

theorem rad_lt_pi_div_two {lat : ℝ} (h1 : -85.05113 ≤ lat) (h2 : lat ≤ 85.05113) :
    -(π / 2) < lat * (π / 180) ∧ lat * (π / 180) < π / 2 := by
  have hπ := Real.pi_pos
  constructor <;> nlinarith

/-- C1: for every position with latitude in the Mercator-valid range and every
zoom level, translating the position to a pixel offset relative to a reference
position with `screen_offset` and translating that offset back with
`screen_to_position` (the `inverse`) returns the original position exactly (the
model works over the reals, so the floating-point tolerance is zero). -/
theorem screen_to_position_screen_offset (pos ref : Position) (zoom : ℕ)
    (h1 : -85.05113 ≤ pos.y) (h2 : pos.y ≤ 85.05113) :
    screen_to_position (screen_offset pos zoom ref) zoom ref = pos := by
  have hT : totalPixels zoom ≠ 0 := ne_of_gt (totalPixels_pos zoom)
  have hπ : π ≠ 0 := Real.pi_ne_zero
  have hcl : clampLat pos.y = pos.y := clampLat_eq_self h1 h2
  have hrad := rad_lt_pi_div_two h1 h2
  refine Position.ext_xy ?_ ?_
  · show (2 * (((project ref zoom).1 + (screen_offset pos zoom ref).1) / totalPixels zoom) - 1)
        * 180 = pos.x
    unfold screen_offset
    have hx : (project ref zoom).1 + ((project pos zoom).1 - (project ref zoom).1)
        = (mercatorNormalized pos).1 * totalPixels zoom := by
      unfold project; ring
    rw [hx, mul_div_assoc, div_self hT, mul_one]
    unfold mercatorNormalized
    field_simp
    ring
  · show arctan (sinh ((1 - 2 * (((project ref zoom).2 + (screen_offset pos zoom ref).2)
        / totalPixels zoom)) * π)) * (180 / π) = pos.y
    unfold screen_offset
    have hy : (project ref zoom).2 + ((project pos zoom).2 - (project ref zoom).2)
        = (mercatorNormalized pos).2 * totalPixels zoom := by
      unfold project; ring
    rw [hy, mul_div_assoc, div_self hT, mul_one]
    unfold mercatorNormalized
    have harg : (1 - 2 * ((1 - arsinh (tan (clampLat pos.y * (π / 180))) / π) / 2)) * π
        = arsinh (tan (clampLat pos.y * (π / 180))) := by
      field_simp
      ring
    rw [harg, Real.sinh_arsinh, hcl, Real.arctan_tan hrad.1 hrad.2]
    field_simp

theorem tan_le_tan_of_nonneg_le {a b : ℝ} (ha : 0 ≤ a) (hab : a ≤ b) (hb : b < π / 2) :
    tan a ≤ tan b := by
  have hπ := Real.pi_pos
  exact Real.strictMonoOn_tan.monotoneOn ⟨by linarith, by linarith⟩ ⟨by linarith, hb⟩ hab

theorem abs_tan_le_tan {θ m : ℝ} (h0 : 0 ≤ m) (hm : m < π / 2) (h : |θ| ≤ m) :
    |tan θ| ≤ tan m := by
  have hπ := Real.pi_pos
  have habs := abs_le.1 h
  rcases le_or_lt 0 θ with hθ | hθ
  · rw [abs_of_nonneg (Real.tan_nonneg_of_nonneg_of_le_pi_div_two hθ (by linarith))]
    exact tan_le_tan_of_nonneg_le hθ habs.2 hm
  · have h1 : tan θ = -tan (-θ) := by rw [Real.tan_neg, neg_neg]
    rw [h1, abs_neg,
      abs_of_nonneg (Real.tan_nonneg_of_nonneg_of_le_pi_div_two (by linarith) (by linarith))]
    exact tan_le_tan_of_nonneg_le (by linarith) (by linarith) hm

theorem abs_arsinh (x : ℝ) : |arsinh x| = arsinh |x| := by
  rcases le_or_lt 0 x with hx | hx
  · rw [abs_of_nonneg hx, abs_of_nonneg (Real.arsinh_nonneg_iff.2 hx)]
  · rw [abs_of_neg hx, abs_of_neg (Real.arsinh_neg_iff.2 hx), ← Real.arsinh_neg]

/-- C8: `project` is total on every input position.  Latitudes outside the
Mercator-valid range (~±85.05113°) are clamped to the boundary before
projecting — projecting any position equals projecting its clamped version —
and the projected (normalized) y coordinate is always bounded by an explicit
finite constant, so no infinity can arise and no error is surfaced (the
function returns a plain plane point, not a result type). -/
theorem project_total_clamped_bounded (pos : Position) (zoom : ℕ) :
    project pos zoom = project { x := pos.x, y := clampLat pos.y } zoom ∧
    |(mercatorNormalized pos).2 - 1 / 2|
      ≤ arsinh (tan (85.05113 * (π / 180))) / (2 * π) := by
  have hπ := Real.pi_pos
  constructor
  · simp [project, mercatorNormalized, clampLat_idem]
  · have hmem := clampLat_mem pos.y
    have hlt : 85.05113 * (π / 180) < π / 2 := by nlinarith
    have habsθ : |clampLat pos.y * (π / 180)| ≤ 85.05113 * (π / 180) := by
      rw [abs_mul, abs_of_pos (by positivity : (0:ℝ) < π / 180)]
      have : |clampLat pos.y| ≤ 85.05113 := abs_le.2 ⟨hmem.1, hmem.2⟩
      nlinarith
    have htan : |tan (clampLat pos.y * (π / 180))| ≤ tan (85.05113 * (π / 180)) :=
      abs_tan_le_tan (by positivity) hlt habsθ
    have hA : |arsinh (tan (clampLat pos.y * (π / 180)))|
        ≤ arsinh (tan (85.05113 * (π / 180))) := by
      rw [abs_arsinh]
      exact Real.arsinh_le_arsinh.2 htan
    have heq : (mercatorNormalized pos).2 - 1 / 2
        = -(arsinh (tan (clampLat pos.y * (π / 180))) / (2 * π)) := by
      unfold mercatorNormalized
      field_simp
      ring
    rw [heq, abs_neg, abs_div, abs_of_pos (by positivity : (0:ℝ) < 2 * π)]
    exact div_le_div_of_nonneg_right hA (by positivity) |>.trans_eq rfl

/-- Error signalled by `zoom_in` / `zoom_out` at a bound (spec §7:
`ZoomBoundError`, returned to the caller, non-fatal). -/
inductive InvalidZoom where
  | invalidZoom : InvalidZoom
deriving DecidableEq

/-- Lower bound of the valid zoom range (spec §3: "bounded to a valid range
(e.g., 0..=max provider zoom)"). -/
def zoomMin : ℤ := 0

/-- Upper bound of the valid zoom range (OpenStreetMap's maximal provider
zoom). -/
def zoomMax : ℤ := 19

/-- Modelled from the spec: `zoom.rs` is absent from `src/`.  A value object
wrapping a bounded scalar supporting unit increments (spec §4.2). -/
structure Zoom where
  val : ℤ
deriving DecidableEq

/-- Modelled from the spec: `zoom_in` fails with a no-op error when already at
the bound (spec §4.2); Rust's `&mut self -> Result<(), InvalidZoom>` is
modelled as returning the new state together with the result, the state being
unchanged on error. -/
def Zoom.zoom_in (z : Zoom) : Zoom × Except InvalidZoom Unit :=
  if z.val + 1 ≤ zoomMax then (⟨z.val + 1⟩, Except.ok ())
  else (z, Except.error InvalidZoom.invalidZoom)

/-- Modelled from the spec: `zoom_out`, symmetric to `zoom_in` at the lower
bound. -/
def Zoom.zoom_out (z : Zoom) : Zoom × Except InvalidZoom Unit :=
  if zoomMin ≤ z.val - 1 then (⟨z.val - 1⟩, Except.ok ())
  else (z, Except.error InvalidZoom.invalidZoom)

/-- C5: for every zoom value strictly inside the valid range, `zoom_in`
followed by `zoom_out` succeeds and returns the zoom to its original value;
at the upper bound `zoom_in` returns an error and leaves the value unchanged,
and symmetrically `zoom_out` at the lower bound. -/
theorem zoom_in_zoom_out_roundtrip (z : Zoom) (h1 : zoomMin < z.val) (h2 : z.val < zoomMax) :
    (z.zoom_in.1.zoom_out.1 = z ∧ z.zoom_in.2 = Except.ok ()
      ∧ z.zoom_in.1.zoom_out.2 = Except.ok ()) ∧
    (∀ w : Zoom, w.val = zoomMax → w.zoom_in = (w, Except.error InvalidZoom.invalidZoom)) ∧
    (∀ w : Zoom, w.val = zoomMin → w.zoom_out = (w, Except.error InvalidZoom.invalidZoom)) := by
  have e1 : z.zoom_in = (Zoom.mk (z.val + 1), Except.ok ()) := by
    unfold Zoom.zoom_in
    rw [if_pos]
    unfold zoomMax at h2 ⊢
    omega
  have e2 : (Zoom.mk (z.val + 1)).zoom_out = (z, Except.ok ()) := by
    unfold Zoom.zoom_out
    rw [if_pos]
    · show (Zoom.mk (z.val + 1 - 1), Except.ok ()) = (z, Except.ok ())
      have hv : z.val + 1 - 1 = z.val := by omega
      rw [hv]
    · show zoomMin ≤ z.val + 1 - 1
      unfold zoomMin at h1 ⊢
      omega
  refine ⟨⟨by rw [e1, e2], by rw [e1], by rw [e1, e2]⟩, ?_, ?_⟩
  · intro w hw
    unfold Zoom.zoom_in
    rw [if_neg]
    unfold zoomMax at hw ⊢
    omega
  · intro w hw
    unfold Zoom.zoom_out
    rw [if_neg]
    unfold zoomMin at hw ⊢
    omega

/-- C5 witness: the round-trip and both boundary cases instantiated at zoom
value 16 (the interior), 19 (the upper bound) and 0 (the lower bound). -/
theorem zoom_in_zoom_out_roundtrip_witness :
    zoomMin < (Zoom.mk 16).val ∧ (Zoom.mk 16).val < zoomMax ∧
    (((Zoom.mk 16).zoom_in.1.zoom_out.1 = Zoom.mk 16
        ∧ (Zoom.mk 16).zoom_in.2 = Except.ok ()
        ∧ (Zoom.mk 16).zoom_in.1.zoom_out.2 = Except.ok ()) ∧
      (∀ w : Zoom, w.val = zoomMax → w.zoom_in = (w, Except.error InvalidZoom.invalidZoom)) ∧
      (∀ w : Zoom, w.val = zoomMin → w.zoom_out = (w, Except.error InvalidZoom.invalidZoom))) :=
  ⟨by decide, by decide, zoom_in_zoom_out_roundtrip (Zoom.mk 16) (by decide) (by decide)⟩

/-- The center mode of the viewport: `Center::MyPosition` (follow the
caller-supplied external position) or `Center::Exact(position)` (pinned), as
matched on in the example's `go_to_my_position` window (`myapp.rs` lines
191–204); the enum body itself lives in the absent `map.rs`. -/
inductive Center where
  | MyPosition : Center
  | Exact : Position → Center

/-- Modelled from the spec: `resolved_center(external_position)` returns the
external position if `Center` is "follow", else the pinned exact position
(spec §4.3); called `center_mode.position(my_position)` in the example
(`myapp.rs` line 97). -/
def Center.position (c : Center) (my_position : Position) : Position :=
  match c with
  | Center.MyPosition => my_position
  | Center.Exact p => p

/-- Viewport state: owns the current `Zoom` and `Center` (spec §3, §4.3);
`map.rs` is absent from `src/`. -/
structure MapMemory where
  center_mode : Center
  zoom : Zoom

/-- Modelled from the spec: `MapMemory::default()` (called at `myapp.rs`
line 24).  The §8 scenario starts with `Center` as "follow", so the fresh
viewport follows the external position; the default zoom is 16. -/
def MapMemory.default : MapMemory :=
  { center_mode := Center.MyPosition, zoom := Zoom.mk 16 }

/-- Modelled from the spec: `pan(delta)` freezes `Center` to "exact" at the
current resolved position offset by the inverse-projected delta (spec §4.3 and
the §8 scenario: pinned at `resolved_center + inverse(delta)`, i.e. the
position whose screen offset from the resolved center is `delta`). -/
noncomputable def MapMemory.pan (m : MapMemory) (delta : ℝ × ℝ) (my_position : Position) :
    MapMemory :=
  let pinned := screen_to_position delta m.zoom.val.toNat (m.center_mode.position my_position)
  { m with center_mode := Center.Exact pinned }

/-- Modelled from the spec: `recenter()` forces `Center` back to "follow"
(spec §4.3); the example's `go_to_my_position` button does exactly this,
`map_memory.center_mode = Center::MyPosition` (`myapp.rs` line 203). -/
def MapMemory.recenter (m : MapMemory) : MapMemory :=
  { m with center_mode := Center.MyPosition }

/-- C4: starting with `Center` in "follow" mode, a pan gesture transitions
`Center` to "exact", pinned at the current resolved center (the external
position) offset by the inverse-projected delta; a subsequent `recenter()`
restores "follow"; and `resolved_center` returns the external position exactly
in "follow" mode and the pinned position exactly in "exact" mode. -/
theorem pan_recenter_scenario (m : MapMemory) (delta : ℝ × ℝ) (ext pinned : Position)
    (hfollow : m.center_mode = Center.MyPosition) :
    (m.pan delta ext).center_mode
        = Center.Exact (screen_to_position delta m.zoom.val.toNat ext) ∧
    (m.pan delta ext).center_mode.position ext
        = screen_to_position delta m.zoom.val.toNat ext ∧
    ((m.pan delta ext).recenter).center_mode = Center.MyPosition ∧
    ((m.pan delta ext).recenter).center_mode.position ext = ext ∧
    Center.position Center.MyPosition ext = ext ∧
    Center.position (Center.Exact pinned) ext = pinned := by
  refine ⟨?_, ?_, rfl, rfl, rfl, rfl⟩ <;>
    simp [MapMemory.pan, Center.position, hfollow]

/-- C4 witness: the scenario instantiated on the default map memory, a
(10, 10) pixel pan and the example's Wrocław station as the external
position. -/
theorem pan_recenter_scenario_witness :
    MapMemory.default.center_mode = Center.MyPosition ∧
    ((MapMemory.default.pan (10, 10) (Position.mk 17.03664 51.09916)).center_mode
        = Center.Exact (screen_to_position (10, 10) MapMemory.default.zoom.val.toNat
            (Position.mk 17.03664 51.09916)) ∧
      (MapMemory.default.pan (10, 10) (Position.mk 17.03664 51.09916)).center_mode.position
          (Position.mk 17.03664 51.09916)
        = screen_to_position (10, 10) MapMemory.default.zoom.val.toNat
            (Position.mk 17.03664 51.09916) ∧
      ((MapMemory.default.pan (10, 10) (Position.mk 17.03664 51.09916)).recenter).center_mode
        = Center.MyPosition ∧
      ((MapMemory.default.pan (10, 10) (Position.mk 17.03664 51.09916)).recenter).center_mode.position
          (Position.mk 17.03664 51.09916) = Position.mk 17.03664 51.09916 ∧
      Center.position Center.MyPosition (Position.mk 17.03664 51.09916)
        = Position.mk 17.03664 51.09916 ∧
      Center.position (Center.Exact (Position.mk 17.03940 51.10005))
          (Position.mk 17.03664 51.09916) = Position.mk 17.03940 51.10005) :=
  ⟨rfl, pan_recenter_scenario MapMemory.default (10, 10) (Position.mk 17.03664 51.09916)
    (Position.mk 17.03940 51.10005) rfl⟩

/-- C10: a freshly constructed `MapMemory` (`MapMemory::default()`) starts
with `Center` in the "follow my position" variant (`Center::MyPosition`), so
from the first frame the resolved center returns the caller-supplied external
position without any `recenter()` call. -/
theorem mapMemory_default_follows :
    MapMemory.default.center_mode = Center.MyPosition ∧
    ∀ ext : Position, MapMemory.default.center_mode.position ext = ext :=
  ⟨rfl, fun _ => rfl⟩

/-- Identifies a raster tile by integer indices at a zoom level
(`pub use mercator::TileId`, body in the absent `mercator.rs`); the invariant
is that valid `x` and `y` lie in `[0, 2^zoom)` (spec §3). -/
structure TileId where
  x : ℕ
  y : ℕ
  zoom : ℕ
deriving DecidableEq

/-- Modelled from the spec: `tile_id(plane_point, zoom)` is the floor of the
scaled plane coordinates, with `x` brought into range by wrapping modulo
`2^zoom` (longitude wraps) and `y` by clamping (latitude does not wrap)
(spec §4.1). -/
noncomputable def tile_id (plane_point : ℝ × ℝ) (zoom : ℕ) : TileId :=
  { x := (⌊plane_point.1⌋ % (2 ^ zoom : ℤ)).toNat,
    y := (min (max ⌊plane_point.2⌋ 0) ((2 ^ zoom : ℤ) - 1)).toNat,
    zoom := zoom }

/-- C6: for every zoom level in the valid range and every plane point, the
`TileId` produced by `tile_id` satisfies `x < 2^zoom` and `y < 2^zoom` (the
coordinates are naturals, so `0 ≤ x` and `0 ≤ y` hold by type), with `x`
wrapped modulo `2^zoom` and `y` clamped. -/
theorem tile_id_in_range (plane_point : ℝ × ℝ) (zoom : ℕ) (hz : zoom ≤ 19) :
    (tile_id plane_point zoom).x < 2 ^ zoom ∧
    (tile_id plane_point zoom).y < 2 ^ zoom ∧
    (tile_id plane_point zoom).zoom = zoom := by
  have hpow : (0:ℤ) < 2 ^ zoom := by positivity
  refine ⟨?_, ?_, rfl⟩
  · show ((⌊plane_point.1⌋ % (2 ^ zoom : ℤ)).toNat) < 2 ^ zoom
    have h0 : 0 ≤ ⌊plane_point.1⌋ % (2 ^ zoom : ℤ) :=
      Int.emod_nonneg _ (ne_of_gt hpow)
    have hlt : ⌊plane_point.1⌋ % (2 ^ zoom : ℤ) < ((2 ^ zoom : ℕ) : ℤ) := by
      push_cast
      exact Int.emod_lt_of_pos _ hpow
    omega
  · show ((min (max ⌊plane_point.2⌋ 0) ((2 ^ zoom : ℤ) - 1)).toNat) < 2 ^ zoom
    have h0 : 0 ≤ min (max ⌊plane_point.2⌋ 0) ((2 ^ zoom : ℤ) - 1) :=
      le_min (le_max_right _ _) (by omega)
    have hle : min (max ⌊plane_point.2⌋ 0) ((2 ^ zoom : ℤ) - 1) ≤ ((2 ^ zoom : ℕ) : ℤ) - 1 := by
      push_cast
      exact min_le_right _ _
    omega

/-- C6 witness: the range invariant instantiated at zoom 14 and the plane
point (5.5, −3.25). -/
theorem tile_id_in_range_witness :
    14 ≤ 19 ∧
    ((tile_id ((5.5 : ℝ), (-3.25 : ℝ)) 14).x < 2 ^ 14 ∧
      (tile_id ((5.5 : ℝ), (-3.25 : ℝ)) 14).y < 2 ^ 14 ∧
      (tile_id ((5.5 : ℝ), (-3.25 : ℝ)) 14).zoom = 14) :=
  ⟨by decide, tile_id_in_range ((5.5 : ℝ), (-3.25 : ℝ)) 14 (by decide)⟩

/-- A decoded, renderable tile image (`pub use tiles::Tile`), abstracted as an
identifier of the decoded image. -/
abbrev Tile := ℕ

/-- Per-tile state held by the cache, one of fetch-in-flight, ready or failed
(spec §3; "not requested" is the absence of an entry).  Ready and failed
entries carry the last-use marker used for least-recently-used eviction
(spec §3: "bookkeeping for eviction (e.g., last-used frame/time)"). -/
inductive TileState where
  | inFlight : TileState
  | ready : Tile → ℕ → TileState
  | failed : ℕ → TileState
deriving DecidableEq

/-- The eviction marker of a completed entry; in-flight entries have none. -/
def TileState.marker : TileState → Option ℕ
  | TileState.inFlight => none
  | TileState.ready _ m => some m
  | TileState.failed m => some m

/-- Modelled from the spec: `tiles.rs` is absent from `src/`.  The cache and
fetcher state: the mapping from `TileId` to tile state as an association list,
the multiset of outstanding fetch operations, the configured maximum number of
cached (completed) entries, and a logical clock providing last-use markers. -/
structure Tiles where
  entries : List (TileId × TileState)
  pending : List TileId
  max_tiles : ℕ
  clock : ℕ

/-- A fresh cache with no entries and no outstanding fetches (spec §3:
"created once per tile provider"). -/
def Tiles.new (max_tiles : ℕ) : Tiles :=
  { entries := [], pending := [], max_tiles := max_tiles, clock := 0 }

/-- First state recorded for a key in the association list. -/
def lookupState (l : List (TileId × TileState)) (t : TileId) : Option TileState :=
  match l with
  | [] => none
  | e :: rest => if e.1 = t then some e.2 else lookupState rest t

/-- The state of one tile as seen by the cache. -/
def Tiles.state (c : Tiles) (t : TileId) : Option TileState :=
  lookupState c.entries t

/-- Refresh the recency marker of a ready entry on a cache hit (spec §4.4). -/
def refreshEntry (t : TileId) (now : ℕ) : List (TileId × TileState) → List (TileId × TileState)
  | [] => []
  | e :: rest =>
    (if e.1 = t then
      match e.2 with
      | TileState.ready img _ => (e.1, TileState.ready img now)
      | _ => e
     else e) :: refreshEntry t now rest

/-- Number of completed (non-in-flight) entries, the quantity bounded by
`max_tiles` (spec §2: "a bounded cache of decoded tile images"). -/
def completedCount (l : List (TileId × TileState)) : ℕ :=
  (l.filter fun e => e.2.marker.isSome).length

/-- Least last-use marker among the completed entries. -/
def minMarker : List (TileId × TileState) → Option ℕ
  | [] => none
  | e :: rest =>
    match e.2.marker, minMarker rest with
    | none, r => r
    | some m, none => some m
    | some m, some r => some (min m r)

/-- Remove the first completed entry carrying the given marker. -/
def removeMarked (m : ℕ) : List (TileId × TileState) → List (TileId × TileState)
  | [] => []
  | e :: rest => if e.2.marker = some m then rest else e :: removeMarked m rest

/-- Modelled from the spec §4.4: evict the least-recently-used completed
entry; entries currently in-flight carry no marker and are never removed. -/
def evictLRU (l : List (TileId × TileState)) : List (TileId × TileState) :=
  match minMarker l with
  | none => l
  | some m => removeMarked m l

/-- Modelled from the spec: `request(tile_id)` (spec §4.4): non-blocking; a
ready tile is returned immediately and its recency marker refreshed; an
in-flight tile returns nothing without scheduling a duplicate fetch; a failed
tile returns nothing and is not retried; an absent tile schedules an
asynchronous fetch (one new outstanding operation) and returns nothing. -/
def Tiles.request (c : Tiles) (t : TileId) : Option Tile × Tiles :=
  match c.state t with
  | some (TileState.ready img _) =>
    (some img, { c with entries := refreshEntry t c.clock c.entries, clock := c.clock + 1 })
  | some TileState.inFlight => (none, c)
  | some (TileState.failed _) => (none, c)
  | none =>
    (none, { c with entries := (t, TileState.inFlight) :: c.entries,
                    pending := t :: c.pending, clock := c.clock + 1 })

/-- Replace the state recorded for a key. -/
def setState (t : TileId) (s : TileState) : List (TileId × TileState) → List (TileId × TileState)
  | [] => []
  | e :: rest => (if e.1 = t then (t, s) else e) :: setState t s rest

/-- Outcome of the fetch pipeline for one tile: on success the decoded image
becomes a ready entry, on failure the tile is marked failed (spec §4.4); both
are stamped with the current clock as last-use marker. -/
def completionState (result : Option Tile) (now : ℕ) : TileState :=
  match result with
  | some img => TileState.ready img now
  | none => TileState.failed now

/-- Enforce the capacity bound after an insertion: if the completed-entry
count exceeds `max_tiles`, the least-recently-used completed entry is evicted
(spec §4.4). -/
def postInsert (l : List (TileId × TileState)) (max_tiles : ℕ) :
    List (TileId × TileState) :=
  if max_tiles < completedCount l then evictLRU l else l

/-- Modelled from the spec: completion of the fetch pipeline for one tile
(spec §4.4): on success the decoded image is inserted as ready, on failure the
tile is marked failed (recorded as tile state, not raised); the outstanding
fetch operation is retired; if the insertion pushes the completed-entry count
over `max_tiles`, the least-recently-used completed entry is evicted. -/
def Tiles.complete_fetch (c : Tiles) (t : TileId) (result : Option Tile) : Tiles :=
  if c.state t = some TileState.inFlight then
    { entries := postInsert (setState t (completionState result c.clock) c.entries) c.max_tiles,
      pending := c.pending.erase t, max_tiles := c.max_tiles, clock := c.clock + 1 }
  else c

/-- States of the cache reachable from a fresh cache by any interleaving of
frame-side requests and background fetch completions. -/
inductive Tiles.Reachable : Tiles → Prop where
  | new (max_tiles : ℕ) : Tiles.Reachable (Tiles.new max_tiles)
  | request (c : Tiles) (t : TileId) :
      Tiles.Reachable c → Tiles.Reachable (c.request t).2
  | complete (c : Tiles) (t : TileId) (r : Option Tile) :
      Tiles.Reachable c → Tiles.Reachable (c.complete_fetch t r)

/-- The inductive invariant of the cache: keys are unique; a tile has exactly
one outstanding fetch operation precisely when it is recorded as in-flight;
the completed-entry count respects the configured bound; and every last-use
marker is in the past of the logical clock. -/
structure TilesInv (c : Tiles) : Prop where
  nodup : (c.entries.map Prod.fst).Nodup
  pending_count : ∀ t : TileId,
    c.pending.count t = if c.state t = some TileState.inFlight then 1 else 0
  bound : completedCount c.entries ≤ c.max_tiles
  marker_lt : ∀ e ∈ c.entries, ∀ m, e.2.marker = some m → m < c.clock

theorem lookupState_eq_none (l : List (TileId × TileState)) (t : TileId) :
    lookupState l t = none ↔ t ∉ l.map Prod.fst := by
  induction l with
  | nil => simp [lookupState]
  | cons e rest ih =>
    by_cases he : e.1 = t
    · simp [lookupState, he]
    · have hne : t ≠ e.1 := fun h => he h.symm
      simp only [lookupState, if_neg he, List.map_cons, List.mem_cons, ih]
      tauto

theorem lookupState_of_mem_nodup (l : List (TileId × TileState)) (e : TileId × TileState)
    (hnd : (l.map Prod.fst).Nodup) (he : e ∈ l) : lookupState l e.1 = some e.2 := by
  induction l with
  | nil => cases he
  | cons a rest ih =>
    rcases List.mem_cons.1 he with h | h
    · subst h
      simp [lookupState]
    · have hne : a.1 ≠ e.1 := by
        intro hk
        have : a.1 ∉ rest.map Prod.fst := (List.nodup_cons.1 hnd).1
        exact this (hk ▸ List.mem_map_of_mem Prod.fst h)
      simp only [lookupState, if_neg hne]
      exact ih (List.nodup_cons.1 hnd).2 h

theorem refreshEntry_keys (t : TileId) (now : ℕ) (l : List (TileId × TileState)) :
    (refreshEntry t now l).map Prod.fst = l.map Prod.fst := by
  induction l with
  | nil => rfl
  | cons e rest ih =>
    simp only [refreshEntry, List.map_cons, ih]
    congr 1
    split_ifs with h
    · cases e.2 <;> simp
    · rfl

theorem lookupState_refreshEntry_ne (t u : TileId) (now : ℕ) (l : List (TileId × TileState))
    (hne : u ≠ t) : lookupState (refreshEntry t now l) u = lookupState l u := by
  induction l with
  | nil => rfl
  | cons e rest ih =>
    by_cases he : e.1 = t
    · have hkey : (if e.1 = t then
          match e.2 with
          | TileState.ready img _ => (e.1, TileState.ready img now)
          | _ => e
        else e).1 = e.1 := by
        rw [if_pos he]
        cases e.2 <;> rfl
      simp only [refreshEntry, lookupState, hkey]
      have hne2 : e.1 ≠ u := by rw [he]; exact fun h => hne h.symm
      rw [if_neg hne2, if_neg hne2, ih]
    · simp only [refreshEntry, lookupState, if_neg he]
      by_cases hu : e.1 = u
      · rw [if_pos hu, if_pos hu]
      · rw [if_neg hu, if_neg hu, ih]

theorem lookupState_refreshEntry_ready (t : TileId) (now : ℕ) (l : List (TileId × TileState))
    (img : Tile) (m : ℕ) (h : lookupState l t = some (TileState.ready img m)) :
    lookupState (refreshEntry t now l) t = some (TileState.ready img now) := by
  induction l with
  | nil => simp [lookupState] at h
  | cons e rest ih =>
    obtain ⟨k, s⟩ := e
    by_cases he : k = t
    · have he2 : s = TileState.ready img m := by
        simp only [lookupState, if_pos he] at h
        exact Option.some.inj h
      subst he2
      simp [refreshEntry, lookupState, he]
    · simp only [lookupState, if_neg he] at h
      simp only [refreshEntry, if_neg he, lookupState, if_neg he]
      exact ih h

theorem lookupState_refreshEntry_inFlight (t u : TileId) (now : ℕ)
    (l : List (TileId × TileState)) :
    lookupState (refreshEntry t now l) u = some TileState.inFlight ↔
      lookupState l u = some TileState.inFlight := by
  induction l with
  | nil => simp [refreshEntry]
  | cons e rest ih =>
    obtain ⟨k, s⟩ := e
    by_cases he : k = t
    · subst he
      by_cases hu : k = u
      · subst hu
        cases s <;> simp [refreshEntry, lookupState]
      · cases s <;> simp [refreshEntry, lookupState, hu, ih]
    · by_cases hu : k = u
      · subst hu
        simp [refreshEntry, lookupState, he]
      · simp [refreshEntry, lookupState, he, hu, ih]

theorem completedCount_refreshEntry (t : TileId) (now : ℕ) (l : List (TileId × TileState)) :
    completedCount (refreshEntry t now l) = completedCount l := by
  induction l with
  | nil => rfl
  | cons e rest ih =>
    obtain ⟨k, s⟩ := e
    by_cases he : k = t
    · cases s <;>
        simp [refreshEntry, completedCount, List.filter_cons, TileState.marker, he] <;>
        simpa [completedCount] using ih
    · cases s <;>
        simp [refreshEntry, completedCount, List.filter_cons, TileState.marker, he] <;>
        simpa [completedCount] using ih

theorem setState_keys (t : TileId) (s : TileState) (l : List (TileId × TileState)) :
    (setState t s l).map Prod.fst = l.map Prod.fst := by
  induction l with
  | nil => rfl
  | cons e rest ih =>
    obtain ⟨k, st⟩ := e
    by_cases he : k = t
    · subst he
      simp [setState, ih]
    · simp [setState, he, ih]

theorem lookupState_setState_ne (t u : TileId) (s : TileState) (l : List (TileId × TileState))
    (hne : u ≠ t) : lookupState (setState t s l) u = lookupState l u := by
  induction l with
  | nil => rfl
  | cons e rest ih =>
    obtain ⟨k, st⟩ := e
    by_cases he : k = t
    · subst he
      have h2 : k ≠ u := fun h => hne (h ▸ rfl)
      simp [setState, lookupState, h2, ih]
    · by_cases hu : k = u
      · subst hu
        simp [setState, lookupState, he]
      · simp [setState, lookupState, he, hu, ih]

theorem lookupState_setState_self (t : TileId) (s : TileState) (l : List (TileId × TileState))
    (h : t ∈ l.map Prod.fst) : lookupState (setState t s l) t = some s := by
  induction l with
  | nil => simp at h
  | cons e rest ih =>
    obtain ⟨k, st⟩ := e
    by_cases he : k = t
    · subst he
      simp [setState, lookupState]
    · have h2 : t ∈ rest.map Prod.fst := by
        rcases List.mem_cons.1 h with h1 | h1
        · exact absurd h1.symm he
        · exact h1
      simp [setState, lookupState, he, ih h2]

theorem mem_setState (t : TileId) (s : TileState) (l : List (TileId × TileState))
    (e : TileId × TileState) (h : e ∈ setState t s l) : e ∈ l ∨ e = (t, s) := by
  induction l with
  | nil => simp [setState] at h
  | cons a rest ih =>
    simp only [setState, List.mem_cons] at h
    rcases h with h | h
    · split_ifs at h
      · exact Or.inr h
      · exact Or.inl (h ▸ List.mem_cons_self a rest)
    · rcases ih h with h1 | h1
      · exact Or.inl (List.mem_cons_of_mem a h1)
      · exact Or.inr h1

theorem setState_not_mem (t : TileId) (s : TileState) (l : List (TileId × TileState))
    (h : t ∉ l.map Prod.fst) : setState t s l = l := by
  induction l with
  | nil => rfl
  | cons a rest ih =>
    simp only [List.map_cons, List.mem_cons] at h
    push_neg at h
    simp [setState, Ne.symm h.1, ih h.2]

theorem completedCount_setState (t : TileId) (s : TileState) (l : List (TileId × TileState))
    (hnd : (l.map Prod.fst).Nodup) (h : lookupState l t = some TileState.inFlight)
    (hs : s.marker.isSome) :
    completedCount (setState t s l) = completedCount l + 1 := by
  induction l with
  | nil => simp [lookupState] at h
  | cons e rest ih =>
    obtain ⟨k, st⟩ := e
    by_cases he : k = t
    · subst he
      have hst : st = TileState.inFlight := by
        simp only [lookupState, if_pos rfl] at h
        exact Option.some.inj h
      subst hst
      have hnomem : k ∉ rest.map Prod.fst := (List.nodup_cons.1 hnd).1
      have hset : setState k s rest = rest := setState_not_mem k s rest hnomem
      cases s with
      | inFlight => simp [TileState.marker] at hs
      | ready img m =>
        simp [setState, completedCount, List.filter_cons, hset, TileState.marker]
      | failed m =>
        simp [setState, completedCount, List.filter_cons, hset, TileState.marker]
    · have h2 : lookupState rest t = some TileState.inFlight := by
        simpa [lookupState, he] using h
      have ihr := ih (List.nodup_cons.1 hnd).2 h2
      simp only [setState, if_neg he, completedCount, List.filter_cons]
      by_cases hc : st.marker.isSome
      · simp only [hc, if_pos, List.length_cons]
        simp only [completedCount] at ihr
        omega
      · simp only [hc, Bool.false_eq_true, if_false]
        simpa [completedCount] using ihr

theorem mem_setState_of_ne (t : TileId) (s : TileState) (l : List (TileId × TileState))
    (e : TileId × TileState) (he : e ∈ l) (hne : e.1 ≠ t) : e ∈ setState t s l := by
  induction l with
  | nil => cases he
  | cons a rest ih =>
    rcases List.mem_cons.1 he with h1 | h1
    · subst h1
      simp only [setState]
      rw [if_neg hne]
      exact List.mem_cons_self _ _
    · simp only [setState]
      exact List.mem_cons_of_mem _ (ih h1)

theorem minMarker_none_forall (l : List (TileId × TileState)) (h : minMarker l = none) :
    ∀ e ∈ l, e.2.marker = none := by
  induction l with
  | nil => intro e he; cases he
  | cons a rest ih =>
    have hsplit : a.2.marker = none ∧ minMarker rest = none := by
      cases hma : a.2.marker with
      | none =>
        cases hmr : minMarker rest with
        | none => exact ⟨rfl, rfl⟩
        | some r => simp [minMarker, hma, hmr] at h
      | some m =>
        cases hmr : minMarker rest with
        | none => simp [minMarker, hma, hmr] at h
        | some r => simp [minMarker, hma, hmr] at h
    intro e he
    rcases List.mem_cons.1 he with h1 | h1
    · exact h1 ▸ hsplit.1
    · exact ih hsplit.2 e h1

theorem completedCount_eq_zero (l : List (TileId × TileState))
    (h : ∀ e ∈ l, e.2.marker = none) : completedCount l = 0 := by
  induction l with
  | nil => rfl
  | cons a rest ih =>
    have ha := h a (List.mem_cons_self a rest)
    have ihr := ih fun e he => h e (List.mem_cons_of_mem a he)
    simp only [completedCount, List.filter_cons, ha, Option.isSome_none,
      Bool.false_eq_true, if_false]
    exact ihr

theorem minMarker_isSome_of_completed (l : List (TileId × TileState))
    (h : completedCount l ≠ 0) : ∃ m, minMarker l = some m := by
  cases hm : minMarker l with
  | some m => exact ⟨m, rfl⟩
  | none => exact absurd (completedCount_eq_zero l (minMarker_none_forall l hm)) h

theorem minMarker_mem (l : List (TileId × TileState)) (m : ℕ) (h : minMarker l = some m) :
    ∃ e ∈ l, e.2.marker = some m := by
  induction l with
  | nil => simp [minMarker] at h
  | cons a rest ih =>
    cases hma : a.2.marker with
    | none =>
      cases hmr : minMarker rest with
      | none => simp [minMarker, hma, hmr] at h
      | some r =>
        have hr : r = m := by
          simpa [minMarker, hma, hmr] using h
        rcases ih (hr ▸ hmr) with ⟨e, he, hem⟩
        exact ⟨e, List.mem_cons_of_mem a he, hem⟩
    | some m0 =>
      cases hmr : minMarker rest with
      | none =>
        have hr : m0 = m := by
          simpa [minMarker, hma, hmr] using h
        exact ⟨a, List.mem_cons_self a rest, hr ▸ hma⟩
      | some r =>
        have hm2 : min m0 r = m := by
          simpa [minMarker, hma, hmr] using h
        rcases le_total m0 r with hle | hle
        · have hr : m0 = m := by rw [← hm2, min_eq_left hle]
          exact ⟨a, List.mem_cons_self a rest, hr ▸ hma⟩
        · have hr : r = m := by rw [← hm2, min_eq_right hle]
          rcases ih (hr ▸ hmr) with ⟨e, he, hem⟩
          exact ⟨e, List.mem_cons_of_mem a he, hem⟩

theorem minMarker_le (l : List (TileId × TileState)) :
    ∀ m, minMarker l = some m → ∀ e ∈ l, ∀ k, e.2.marker = some k → m ≤ k := by
  induction l with
  | nil => intro m _ e he; cases he
  | cons a rest ih =>
    intro m h e he k hek
    rcases List.mem_cons.1 he with h1 | h1
    · subst h1
      cases hmr : minMarker rest with
      | none =>
        have : k = m := by simpa [minMarker, hek, hmr] using h
        omega
      | some r =>
        have hm2 : min k r = m := by simpa [minMarker, hek, hmr] using h
        rw [← hm2]
        exact min_le_left _ _
    · cases hma : a.2.marker with
      | none =>
        have hmr2 : minMarker rest = some m := by
          cases hmr : minMarker rest with
          | none => simp [minMarker, hma, hmr] at h
          | some r =>
            have hrm : r = m := by simpa [minMarker, hma, hmr] using h
            rw [hrm]
        exact ih m hmr2 e h1 k hek
      | some m0 =>
        cases hmr : minMarker rest with
        | none =>
          have := minMarker_none_forall rest hmr e h1
          rw [this] at hek
          cases hek
        | some r =>
          have hm2 : min m0 r = m := by simpa [minMarker, hma, hmr] using h
          have hmle : m ≤ r := by
            rw [← hm2]
            exact min_le_right _ _
          exact le_trans hmle (ih r hmr e h1 k hek)

theorem removeMarked_sublist (m : ℕ) (l : List (TileId × TileState)) :
    List.Sublist (removeMarked m l) l := by
  induction l with
  | nil => simp [removeMarked]
  | cons a rest ih =>
    by_cases hc : a.2.marker = some m
    · simp only [removeMarked, if_pos hc]
      exact List.sublist_cons_self a rest
    · simp only [removeMarked, if_neg hc]
      exact List.Sublist.cons₂ a ih

theorem completedCount_removeMarked (m : ℕ) (l : List (TileId × TileState))
    (h : ∃ e ∈ l, e.2.marker = some m) :
    completedCount (removeMarked m l) + 1 = completedCount l := by
  induction l with
  | nil =>
    rcases h with ⟨e, he, _⟩
    cases he
  | cons a rest ih =>
    by_cases hc : a.2.marker = some m
    · have hca : a.2.marker.isSome := by rw [hc]; rfl
      simp only [removeMarked, if_pos hc, completedCount, List.filter_cons, hca, if_pos,
        List.length_cons]
    · have h2 : ∃ e ∈ rest, e.2.marker = some m := by
        rcases h with ⟨e, he, hem⟩
        rcases List.mem_cons.1 he with h1 | h1
        · exact absurd (h1 ▸ hem) hc
        · exact ⟨e, h1, hem⟩
      have ihr := ih h2
      simp only [removeMarked, if_neg hc, completedCount, List.filter_cons]
      by_cases hca : a.2.marker.isSome
      · simp only [hca, if_pos, List.length_cons]
        simp only [completedCount] at ihr
        omega
      · simp only [hca, Bool.false_eq_true, if_false]
        exact ihr

theorem lookupState_removeMarked (m : ℕ) (l : List (TileId × TileState)) (u : TileId)
    (st : TileState) (h : lookupState l u = some st) (hm : st.marker ≠ some m) :
    lookupState (removeMarked m l) u = some st := by
  induction l with
  | nil => simp [lookupState] at h
  | cons a rest ih =>
    by_cases hu : a.1 = u
    · have ha : a.2 = st := by
        simpa [lookupState, hu] using h
      have hc : a.2.marker ≠ some m := by rw [ha]; exact hm
      simp [removeMarked, hc, hm, lookupState, hu, ha]
    · have h2 : lookupState rest u = some st := by
        simpa [lookupState, hu] using h
      by_cases hc : a.2.marker = some m
      · simpa [removeMarked, hc] using h2
      · simpa [removeMarked, hc, lookupState, hu] using ih h2

theorem lookupState_removeMarked_or (m : ℕ) (l : List (TileId × TileState)) (u : TileId)
    (hnd : (l.map Prod.fst).Nodup) :
    lookupState (removeMarked m l) u = lookupState l u ∨
      lookupState (removeMarked m l) u = none := by
  induction l with
  | nil => left; rfl
  | cons a rest ih =>
    by_cases hc : a.2.marker = some m
    · by_cases hu : a.1 = u
      · right
        have hnm : u ∉ rest.map Prod.fst := hu ▸ (List.nodup_cons.1 hnd).1
        simp only [removeMarked, if_pos hc]
        exact (lookupState_eq_none rest u).2 hnm
      · left
        simp [removeMarked, hc, lookupState, hu]
    · by_cases hu : a.1 = u
      · left
        simp [removeMarked, hc, lookupState, hu]
      · rcases ih (List.nodup_cons.1 hnd).2 with h1 | h1
        · left
          simpa [removeMarked, hc, lookupState, hu] using h1
        · right
          simpa [removeMarked, hc, lookupState, hu] using h1

theorem lookupState_removeMarked_none (m : ℕ) (l : List (TileId × TileState)) (u : TileId)
    (st : TileState) (hnd : (l.map Prod.fst).Nodup) (h : lookupState l u = some st)
    (h2 : lookupState (removeMarked m l) u = none) : st.marker = some m := by
  induction l with
  | nil => simp [lookupState] at h
  | cons a rest ih =>
    by_cases hu : a.1 = u
    · have ha : a.2 = st := by
        simpa [lookupState, hu] using h
      by_cases hc : a.2.marker = some m
      · exact ha ▸ hc
      · exfalso
        simp [removeMarked, hc, lookupState, hu] at h2
    · have hrest : lookupState rest u = some st := by
        simpa [lookupState, hu] using h
      by_cases hc : a.2.marker = some m
      · exfalso
        simp only [removeMarked, if_pos hc] at h2
        rw [hrest] at h2
        cases h2
      · have h3 : lookupState (removeMarked m rest) u = none := by
          simpa [removeMarked, hc, lookupState, hu] using h2
        exact ih (List.nodup_cons.1 hnd).2 hrest h3

theorem mem_refreshEntry (t : TileId) (now : ℕ) (l : List (TileId × TileState))
    (e : TileId × TileState) (h : e ∈ refreshEntry t now l) :
    e ∈ l ∨ ∃ img, e.2 = TileState.ready img now := by
  induction l with
  | nil => simp [refreshEntry] at h
  | cons a rest ih =>
    obtain ⟨k, s⟩ := a
    simp only [refreshEntry, List.mem_cons] at h
    rcases h with h | h
    · by_cases hc : k = t
      · rw [if_pos hc] at h
        cases s with
        | ready img mm =>
          subst h
          exact Or.inr ⟨img, rfl⟩
        | inFlight => exact Or.inl (h ▸ List.mem_cons_self _ _)
        | failed mm => exact Or.inl (h ▸ List.mem_cons_self _ _)
      · rw [if_neg hc] at h
        exact Or.inl (h ▸ List.mem_cons_self _ _)
    · rcases ih h with h1 | h1
      · exact Or.inl (List.mem_cons_of_mem _ h1)
      · exact Or.inr h1

theorem completedCount_postInsert (l : List (TileId × TileState)) (max_tiles : ℕ)
    (h : completedCount l ≤ max_tiles + 1) :
    completedCount (postInsert l max_tiles) ≤ max_tiles := by
  unfold postInsert
  split_ifs with hc
  · have hpos : completedCount l ≠ 0 := by omega
    rcases minMarker_isSome_of_completed l hpos with ⟨m, hm⟩
    have hex := minMarker_mem l m hm
    have hdec := completedCount_removeMarked m l hex
    have heq : evictLRU l = removeMarked m l := by
      unfold evictLRU
      rw [hm]
    rw [heq]
    omega
  · omega

theorem lookupState_postInsert_or (l : List (TileId × TileState)) (max_tiles : ℕ) (u : TileId)
    (hnd : (l.map Prod.fst).Nodup) :
    lookupState (postInsert l max_tiles) u = lookupState l u ∨
      lookupState (postInsert l max_tiles) u = none := by
  unfold postInsert
  split_ifs
  · unfold evictLRU
    cases hm : minMarker l with
    | none => left; rfl
    | some m => exact lookupState_removeMarked_or m l u hnd
  · left; rfl

theorem lookupState_postInsert_keep (l : List (TileId × TileState)) (max_tiles : ℕ)
    (u : TileId) (st : TileState) (h : lookupState l u = some st) (hm : st.marker = none) :
    lookupState (postInsert l max_tiles) u = some st := by
  unfold postInsert
  split_ifs
  · unfold evictLRU
    cases hmm : minMarker l with
    | none => exact h
    | some m => exact lookupState_removeMarked m l u st h (by simp [hm])
  · exact h

theorem mem_postInsert (l : List (TileId × TileState)) (max_tiles : ℕ)
    (e : TileId × TileState) (h : e ∈ postInsert l max_tiles) : e ∈ l := by
  unfold postInsert at h
  split_ifs at h
  · unfold evictLRU at h
    cases hm : minMarker l with
    | none => rw [hm] at h; exact h
    | some m =>
      rw [hm] at h
      exact (removeMarked_sublist m l).subset h
  · exact h

theorem keys_postInsert_nodup (l : List (TileId × TileState)) (max_tiles : ℕ)
    (hnd : (l.map Prod.fst).Nodup) :
    ((postInsert l max_tiles).map Prod.fst).Nodup := by
  unfold postInsert
  split_ifs
  · unfold evictLRU
    cases hm : minMarker l with
    | none => exact hnd
    | some m => exact ((removeMarked_sublist m l).map Prod.fst).nodup hnd
  · exact hnd

theorem tilesInv_new (max_tiles : ℕ) : TilesInv (Tiles.new max_tiles) := by
  refine ⟨?_, ?_, ?_, ?_⟩
  · simp [Tiles.new]
  · intro t
    simp [Tiles.new, Tiles.state, lookupState]
  · simp [Tiles.new, completedCount]
  · intro e he
    simp [Tiles.new] at he

theorem tilesInv_request (c : Tiles) (t : TileId) (inv : TilesInv c) :
    TilesInv (c.request t).2 := by
  cases hst : c.state t with
  | none =>
    have hreq : (c.request t).2 =
        { c with entries := (t, TileState.inFlight) :: c.entries,
                 pending := t :: c.pending, clock := c.clock + 1 } := by
      simp [Tiles.request, hst]
    rw [hreq]
    refine ⟨?_, ?_, ?_, ?_⟩
    · simp only [List.map_cons]
      exact List.nodup_cons.2 ⟨(lookupState_eq_none c.entries t).1 hst, inv.nodup⟩
    · intro u
      have hpc := inv.pending_count u
      simp only [Tiles.state] at hpc
      by_cases hu : u = t
      · subst hu
        have h0 : List.count u c.pending = 0 := by
          simp only [show lookupState c.entries u = none from hst] at hpc
          simpa using hpc
        show List.count u (u :: c.pending)
            = if lookupState ((u, TileState.inFlight) :: c.entries) u
                = some TileState.inFlight then 1 else 0
        simp [lookupState, List.count_cons, h0]
      · have hu2 : ¬(t = u) := fun h => hu h.symm
        have hcc : List.count u (t :: c.pending) = List.count u c.pending := by
          rw [List.count_cons]
          simp [hu, hu2]
        show List.count u (t :: c.pending)
            = if lookupState ((t, TileState.inFlight) :: c.entries) u
                = some TileState.inFlight then 1 else 0
        rw [hcc]
        simp only [lookupState]
        rw [if_neg (show ¬((t, TileState.inFlight).1 = u) from hu2)]
        exact hpc
    · simp only [completedCount, List.filter_cons]
      have : (t, TileState.inFlight).2.marker.isSome = false := rfl
      rw [this]
      simpa [completedCount] using inv.bound
    · intro e he m hm
      rcases List.mem_cons.1 he with h1 | h1
      · rw [h1] at hm
        simp [TileState.marker] at hm
      · exact Nat.lt_succ_of_lt (inv.marker_lt e h1 m hm)
  | some s =>
    cases s with
    | inFlight =>
      have hreq : (c.request t).2 = c := by simp [Tiles.request, hst]
      rw [hreq]
      exact inv
    | failed mm =>
      have hreq : (c.request t).2 = c := by simp [Tiles.request, hst]
      rw [hreq]
      exact inv
    | ready img mm =>
      have hreq : (c.request t).2 =
          { c with entries := refreshEntry t c.clock c.entries,
                   clock := c.clock + 1 } := by
        simp [Tiles.request, hst]
      rw [hreq]
      refine ⟨?_, ?_, ?_, ?_⟩
      · rw [refreshEntry_keys]
        exact inv.nodup
      · intro u
        have hpc := inv.pending_count u
        have hiff := lookupState_refreshEntry_inFlight t u c.clock c.entries
        by_cases hin : lookupState c.entries u = some TileState.inFlight
        · simp only [Tiles.state]
          rw [if_pos (hiff.2 hin)]
          rw [Tiles.state, if_pos hin] at hpc
          exact hpc
        · simp only [Tiles.state]
          rw [if_neg fun h => hin (hiff.1 h)]
          rw [Tiles.state, if_neg hin] at hpc
          exact hpc
      · rw [completedCount_refreshEntry]
        exact inv.bound
      · intro e he m hm
        rcases mem_refreshEntry t c.clock c.entries e he with h1 | ⟨img2, h2⟩
        · exact Nat.lt_succ_of_lt (inv.marker_lt e h1 m hm)
        · rw [h2] at hm
          simp only [TileState.marker] at hm
          have hcm : c.clock = m := Option.some.inj hm
          show m < c.clock + 1
          omega

theorem tilesInv_complete (c : Tiles) (t : TileId) (r : Option Tile) (inv : TilesInv c) :
    TilesInv (c.complete_fetch t r) := by
  by_cases hin : c.state t = some TileState.inFlight
  · have hmem : t ∈ c.entries.map Prod.fst := by
      by_contra hno
      have hnone := (lookupState_eq_none c.entries t).2 hno
      rw [Tiles.state, hnone] at hin
      cases hin
    have hsm : (completionState r c.clock).marker = some c.clock := by
      cases r <;> rfl
    have hC : c.complete_fetch t r =
        { entries :=
            postInsert (setState t (completionState r c.clock) c.entries) c.max_tiles,
          pending := c.pending.erase t, max_tiles := c.max_tiles,
          clock := c.clock + 1 } := by
      unfold Tiles.complete_fetch
      rw [if_pos hin]
    rw [hC]
    have hl1keys := setState_keys t (completionState r c.clock) c.entries
    have hl1nodup : ((setState t (completionState r c.clock) c.entries).map Prod.fst).Nodup :=
      hl1keys ▸ inv.nodup
    have hcc1 : completedCount (setState t (completionState r c.clock) c.entries)
        = completedCount c.entries + 1 :=
      completedCount_setState t (completionState r c.clock) c.entries inv.nodup hin
        (by rw [hsm]; rfl)
    refine ⟨?_, ?_, ?_, ?_⟩
    · exact keys_postInsert_nodup _ _ hl1nodup
    · intro u
      by_cases hu : u = t
      · subst hu
        have hcount : c.pending.count u = 1 := by
          have := inv.pending_count u
          rw [if_pos hin] at this
          exact this
        have hc0 : (c.pending.erase u).count u = 0 := by
          rw [List.count_erase_self, hcount]
        have hself : lookupState (setState u (completionState r c.clock) c.entries) u
            = some (completionState r c.clock) :=
          lookupState_setState_self u (completionState r c.clock) c.entries hmem
        have hnotin : completionState r c.clock ≠ TileState.inFlight := by
          cases r <;> simp [completionState]
        simp only [Tiles.state]
        rcases lookupState_postInsert_or (setState u (completionState r c.clock) c.entries)
            c.max_tiles u hl1nodup with h1 | h1
        · simp only [h1, hself, hc0]
          simp [hnotin]
        · simp only [h1, hc0]
          simp
      · have hcnt : (c.pending.erase t).count u = c.pending.count u :=
          List.count_erase_of_ne hu c.pending
        have hstu : lookupState (setState t (completionState r c.clock) c.entries) u
            = lookupState c.entries u :=
          lookupState_setState_ne t u (completionState r c.clock) c.entries hu
        by_cases hinu : lookupState c.entries u = some TileState.inFlight
        · have hkeep : lookupState (postInsert (setState t (completionState r c.clock)
              c.entries) c.max_tiles) u = some TileState.inFlight :=
            lookupState_postInsert_keep _ _ u TileState.inFlight (hstu.trans hinu) rfl
          simp only [Tiles.state]
          simp only [hkeep, hcnt]
          have := inv.pending_count u
          rw [Tiles.state] at this
          rw [if_pos hinu] at this
          simp [this]
        · have h3 : lookupState (postInsert (setState t (completionState r c.clock)
              c.entries) c.max_tiles) u ≠ some TileState.inFlight := by
            rcases lookupState_postInsert_or (setState t (completionState r c.clock) c.entries)
                c.max_tiles u hl1nodup with h4 | h4
            · rw [h4, hstu]
              exact hinu
            · rw [h4]
              simp
          simp only [Tiles.state]
          rw [if_neg h3, hcnt]
          have := inv.pending_count u
          rw [Tiles.state] at this
          rw [if_neg hinu] at this
          exact this
    · have hb := inv.bound
      exact completedCount_postInsert _ _ (by omega)
    · intro e he m hm
      have he1 := mem_postInsert _ _ e he
      rcases mem_setState t (completionState r c.clock) c.entries e he1 with h1 | h1
      · exact Nat.lt_succ_of_lt (inv.marker_lt e h1 m hm)
      · rw [h1] at hm
        simp only at hm
        rw [hsm] at hm
        have hcm : c.clock = m := Option.some.inj hm
        show m < c.clock + 1
        omega
  · have hC : c.complete_fetch t r = c := by
      unfold Tiles.complete_fetch
      rw [if_neg hin]
    rw [hC]
    exact inv

theorem tiles_reachable_inv (c : Tiles) (h : c.Reachable) : TilesInv c := by
  induction h with
  | new m => exact tilesInv_new m
  | request c t _ ih => exact tilesInv_request c t ih
  | complete c t r _ ih => exact tilesInv_complete c t r ih

theorem exists_completed_of_pos (l : List (TileId × TileState))
    (h : 0 < completedCount l) : ∃ e ∈ l, ∃ k, e.2.marker = some k := by
  unfold completedCount at h
  rcases List.exists_mem_of_length_pos h with ⟨e, he⟩
  rcases List.mem_filter.1 he with ⟨hmem, hsome⟩
  rcases Option.isSome_iff_exists.1 hsome with ⟨k, hk⟩
  exact ⟨e, hmem, k, hk⟩

/-- C2: at every reachable state of the cache there is at most one outstanding
fetch operation per `TileId`, and calling `request` again while a fetch for
that tile is in flight is coalesced: it returns nothing and leaves the cache —
including the multiset of outstanding fetches — unchanged, so no additional
underlying fetch is issued. -/
theorem request_while_inFlight_coalesced (c : Tiles) (t : TileId) (h : c.Reachable) :
    c.pending.count t ≤ 1 ∧
    (c.state t = some TileState.inFlight →
      (c.request t).1 = none ∧ (c.request t).2 = c) := by
  have inv := tiles_reachable_inv c h
  constructor
  · rw [inv.pending_count t]
    split_ifs <;> omega
  · intro hin
    constructor <;> simp [Tiles.request, hin]

/-- C2 witness: the coalescing law at the state reached by requesting tile
(1, 2, 3) once from a fresh cache of capacity 8, which puts that tile in
flight. -/
theorem request_while_inFlight_coalesced_witness :
    ((Tiles.new 8).request (TileId.mk 1 2 3)).2.pending.count (TileId.mk 1 2 3) ≤ 1 ∧
    (((Tiles.new 8).request (TileId.mk 1 2 3)).2.state (TileId.mk 1 2 3)
        = some TileState.inFlight →
      ((((Tiles.new 8).request (TileId.mk 1 2 3)).2.request (TileId.mk 1 2 3)).1 = none ∧
        (((Tiles.new 8).request (TileId.mk 1 2 3)).2.request (TileId.mk 1 2 3)).2
          = ((Tiles.new 8).request (TileId.mk 1 2 3)).2)) :=
  request_while_inFlight_coalesced _ _
    (Tiles.Reachable.request (Tiles.new 8) (TileId.mk 1 2 3) (Tiles.Reachable.new 8))

/-- C7: once a fetch has completed successfully and the decoded image is in
the cache as ready, a subsequent `request` returns the cached tile
immediately, refreshes its recency marker to the current clock, and leaves
the outstanding-fetch multiset unchanged (schedules no new fetch). -/
theorem request_hit_after_fetch (c : Tiles) (t : TileId) (img : Tile) (m : ℕ)
    (h : c.Reachable) (hready : c.state t = some (TileState.ready img m)) :
    (c.request t).1 = some img ∧
    (c.request t).2.state t = some (TileState.ready img c.clock) ∧
    (c.request t).2.pending = c.pending := by
  refine ⟨?_, ?_, ?_⟩
  · simp [Tiles.request, hready]
  · simp only [Tiles.request, hready]
    simp only [Tiles.state]
    exact lookupState_refreshEntry_ready t c.clock c.entries img m hready
  · simp [Tiles.request, hready]

/-- C7 witness: the cache-hit law at the state reached by requesting tile
(1, 2, 3) from a fresh cache of capacity 8 and completing its fetch
successfully with decoded image 7 (so its recency marker is 1 and the clock
is 2). -/
theorem request_hit_after_fetch_witness :
    ((((Tiles.new 8).request (TileId.mk 1 2 3)).2.complete_fetch (TileId.mk 1 2 3)
        (some 7)).request (TileId.mk 1 2 3)).1 = some 7 ∧
    ((((Tiles.new 8).request (TileId.mk 1 2 3)).2.complete_fetch (TileId.mk 1 2 3)
        (some 7)).request (TileId.mk 1 2 3)).2.state (TileId.mk 1 2 3)
      = some (TileState.ready 7 (((Tiles.new 8).request (TileId.mk 1 2 3)).2.complete_fetch
          (TileId.mk 1 2 3) (some 7)).clock) ∧
    ((((Tiles.new 8).request (TileId.mk 1 2 3)).2.complete_fetch (TileId.mk 1 2 3)
        (some 7)).request (TileId.mk 1 2 3)).2.pending
      = (((Tiles.new 8).request (TileId.mk 1 2 3)).2.complete_fetch (TileId.mk 1 2 3)
          (some 7)).pending :=
  request_hit_after_fetch _ (TileId.mk 1 2 3) 7 1
    (Tiles.Reachable.complete _ (TileId.mk 1 2 3) (some 7)
      (Tiles.Reachable.request (Tiles.new 8) (TileId.mk 1 2 3) (Tiles.Reachable.new 8)))
    (by decide)

/-- C3: in every reachable state the number of completed cached entries never
exceeds the configured maximum; a request never removes an in-flight entry; a
fetch completion never removes another tile's in-flight entry (in-flight
entries are never evicted); and whenever an entry disappears during a fetch
completion (the only evicting step), it was a completed entry whose last-use
marker was least among all completed entries, i.e. the
least-recently-requested entry not currently in flight. -/
theorem cache_bounded_lru_eviction (c : Tiles) (h : c.Reachable) :
    completedCount c.entries ≤ c.max_tiles ∧
    (∀ t u, c.state u = some TileState.inFlight →
      ((c.request t).2).state u = some TileState.inFlight) ∧
    (∀ t r u, u ≠ t → c.state u = some TileState.inFlight →
      (c.complete_fetch t r).state u = some TileState.inFlight) ∧
    (∀ t r u su, u ≠ t → c.state u = some su →
      (c.complete_fetch t r).state u = none →
      ∃ m, su.marker = some m ∧
        ∀ e ∈ c.entries, ∀ k, e.2.marker = some k → m ≤ k) := by
  have inv := tiles_reachable_inv c h
  refine ⟨inv.bound, ?_, ?_, ?_⟩
  · intro t u hu
    cases hst : c.state t with
    | none =>
      by_cases he : t = u
      · subst he
        simp only [Tiles.request, hst]
        show lookupState ((t, TileState.inFlight) :: c.entries) t = some TileState.inFlight
        simp [lookupState]
      · simp only [Tiles.request, hst]
        show lookupState ((t, TileState.inFlight) :: c.entries) u = some TileState.inFlight
        simp only [lookupState, if_neg he]
        exact hu
    | some s =>
      cases s with
      | inFlight =>
        simp only [Tiles.request, hst]
        exact hu
      | failed mm =>
        simp only [Tiles.request, hst]
        exact hu
      | ready img mm =>
        simp only [Tiles.request, hst]
        show lookupState (refreshEntry t c.clock c.entries) u = some TileState.inFlight
        exact (lookupState_refreshEntry_inFlight t u c.clock c.entries).2 hu
  · intro t r u hu hinu
    by_cases hin : c.state t = some TileState.inFlight
    · have hstu := lookupState_setState_ne t u (completionState r c.clock) c.entries hu
      have hl1 : lookupState (setState t (completionState r c.clock) c.entries) u
          = some TileState.inFlight := hstu.trans hinu
      unfold Tiles.complete_fetch
      rw [if_pos hin]
      simp only [Tiles.state]
      exact lookupState_postInsert_keep _ _ u TileState.inFlight hl1 rfl
    · unfold Tiles.complete_fetch
      rw [if_neg hin]
      exact hinu
  · intro t r u su hu hsu hnone
    by_cases hin : c.state t = some TileState.inFlight
    · have hin' : lookupState c.entries t = some TileState.inFlight := hin
      have hstu := lookupState_setState_ne t u (completionState r c.clock) c.entries hu
      have hl1 : lookupState (setState t (completionState r c.clock) c.entries) u
          = some su := hstu.trans hsu
      have hl1nodup : ((setState t (completionState r c.clock) c.entries).map
          Prod.fst).Nodup :=
        (setState_keys t (completionState r c.clock) c.entries) ▸ inv.nodup
      unfold Tiles.complete_fetch at hnone
      rw [if_pos hin] at hnone
      simp only [Tiles.state] at hnone
      unfold postInsert at hnone
      split_ifs at hnone with hover
      · cases hmmS : minMarker (setState t (completionState r c.clock) c.entries) with
        | none =>
          unfold evictLRU at hnone
          simp only [hmmS] at hnone
          rw [hl1] at hnone
          cases hnone
        | some m =>
          unfold evictLRU at hnone
          simp only [hmmS] at hnone
          have hmarker := lookupState_removeMarked_none m _ u su hl1nodup hl1 hnone
          refine ⟨m, hmarker, ?_⟩
          intro e he k hek
          have het : e.1 ≠ t := by
            intro hkk
            have hl := lookupState_of_mem_nodup c.entries e inv.nodup he
            rw [hkk] at hl
            have h3 : e.2 = TileState.inFlight :=
              Option.some.inj (hl.symm.trans hin')
            rw [h3] at hek
            simp [TileState.marker] at hek
          have hel1 : e ∈ setState t (completionState r c.clock) c.entries :=
            mem_setState_of_ne t (completionState r c.clock) c.entries e he het
          exact minMarker_le _ m hmmS e hel1 k hek
      · rw [hl1] at hnone
        cases hnone
    · unfold Tiles.complete_fetch at hnone
      rw [if_neg hin] at hnone
      rw [hsu] at hnone
      cases hnone

/-- C3 witness: the bound, in-flight preservation and LRU-eviction laws at
the state reached by requesting tile (1, 2, 3) once from a fresh cache of
capacity 2. -/
theorem cache_bounded_lru_eviction_witness :
    completedCount ((Tiles.new 2).request (TileId.mk 1 2 3)).2.entries
      ≤ ((Tiles.new 2).request (TileId.mk 1 2 3)).2.max_tiles ∧
    (∀ t u, ((Tiles.new 2).request (TileId.mk 1 2 3)).2.state u = some TileState.inFlight →
      ((((Tiles.new 2).request (TileId.mk 1 2 3)).2.request t).2).state u
        = some TileState.inFlight) ∧
    (∀ t r u, u ≠ t →
      ((Tiles.new 2).request (TileId.mk 1 2 3)).2.state u = some TileState.inFlight →
      (((Tiles.new 2).request (TileId.mk 1 2 3)).2.complete_fetch t r).state u
        = some TileState.inFlight) ∧
    (∀ t r u su, u ≠ t →
      ((Tiles.new 2).request (TileId.mk 1 2 3)).2.state u = some su →
      (((Tiles.new 2).request (TileId.mk 1 2 3)).2.complete_fetch t r).state u = none →
      ∃ m, su.marker = some m ∧
        ∀ e ∈ ((Tiles.new 2).request (TileId.mk 1 2 3)).2.entries,
          ∀ k, e.2.marker = some k → m ≤ k) :=
  cache_bounded_lru_eviction _
    (Tiles.Reachable.request (Tiles.new 2) (TileId.mk 1 2 3) (Tiles.Reachable.new 2))

/-- C9: a failed fetch is recorded as per-tile state rather than raised as an
exception: after the fetch pipeline completes with a failure the tile is
marked failed (stamped with the current clock), the outstanding fetch
operation is retired, and the failure is observable only through the next
`request` returning "not ready" (nothing) — which also schedules no automatic
retry, leaving the cache unchanged. -/
theorem failed_fetch_recorded (c : Tiles) (t : TileId)
    (h : c.Reachable) (hin : c.state t = some TileState.inFlight)
    (hmax : 1 ≤ c.max_tiles) :
    (c.complete_fetch t none).state t = some (TileState.failed c.clock) ∧
    (c.complete_fetch t none).pending = c.pending.erase t ∧
    ((c.complete_fetch t none).request t).1 = none ∧
    ((c.complete_fetch t none).request t).2 = c.complete_fetch t none := by
  have inv := tiles_reachable_inv c h
  have hin' : lookupState c.entries t = some TileState.inFlight := hin
  have hmem : t ∈ c.entries.map Prod.fst := by
    by_contra hno
    rw [(lookupState_eq_none c.entries t).2 hno] at hin'
    cases hin'
  have hself : lookupState (setState t (completionState none c.clock) c.entries) t
      = some (completionState none c.clock) :=
    lookupState_setState_self t (completionState none c.clock) c.entries hmem
  have hl1nodup : ((setState t (completionState none c.clock) c.entries).map
      Prod.fst).Nodup :=
    (setState_keys t (completionState none c.clock) c.entries) ▸ inv.nodup
  have hcc1 : completedCount (setState t (completionState none c.clock) c.entries)
      = completedCount c.entries + 1 :=
    completedCount_setState t (completionState none c.clock) c.entries inv.nodup hin' rfl
  have hstate : (c.complete_fetch t none).state t = some (TileState.failed c.clock) := by
    unfold Tiles.complete_fetch
    rw [if_pos hin]
    simp only [Tiles.state]
    unfold postInsert
    split_ifs with hover
    · have hold : 1 ≤ completedCount c.entries := by omega
      rcases exists_completed_of_pos c.entries hold with ⟨e0, he0, k0, hk0⟩
      have het : e0.1 ≠ t := by
        intro hkk
        have hl := lookupState_of_mem_nodup c.entries e0 inv.nodup he0
        rw [hkk] at hl
        have h3 : e0.2 = TileState.inFlight := Option.some.inj (hl.symm.trans hin')
        rw [h3] at hk0
        simp [TileState.marker] at hk0
      have hel1 : e0 ∈ setState t (completionState none c.clock) c.entries :=
        mem_setState_of_ne t (completionState none c.clock) c.entries e0 he0 het
      rcases minMarker_isSome_of_completed
          (setState t (completionState none c.clock) c.entries) (by omega) with ⟨mm, hmm⟩
      have heq : evictLRU (setState t (completionState none c.clock) c.entries)
          = removeMarked mm (setState t (completionState none c.clock) c.entries) := by
        unfold evictLRU
        rw [hmm]
      rw [heq]
      have hmmle : mm ≤ k0 := minMarker_le _ mm hmm e0 hel1 k0 hk0
      have hk0lt : k0 < c.clock := inv.marker_lt e0 he0 k0 hk0
      refine lookupState_removeMarked mm _ t (completionState none c.clock) hself ?_
      show (completionState none c.clock).marker ≠ some mm
      simp only [completionState, TileState.marker]
      intro hbad
      have : c.clock = mm := Option.some.inj hbad
      omega
    · exact hself
  refine ⟨hstate, ?_, ?_, ?_⟩
  · unfold Tiles.complete_fetch
    rw [if_pos hin]
  · simp [Tiles.request, hstate]
  · simp [Tiles.request, hstate]

/-- C9 witness: the failure-recording law at the state reached by requesting
tile (1, 2, 3) once from a fresh cache of capacity 8, whose fetch is then in
flight. -/
theorem failed_fetch_recorded_witness :
    ((((Tiles.new 8).request (TileId.mk 1 2 3)).2.complete_fetch (TileId.mk 1 2 3)
        none).state (TileId.mk 1 2 3)
      = some (TileState.failed ((Tiles.new 8).request (TileId.mk 1 2 3)).2.clock)) ∧
    ((((Tiles.new 8).request (TileId.mk 1 2 3)).2.complete_fetch (TileId.mk 1 2 3)
        none).pending
      = ((Tiles.new 8).request (TileId.mk 1 2 3)).2.pending.erase (TileId.mk 1 2 3)) ∧
    (((((Tiles.new 8).request (TileId.mk 1 2 3)).2.complete_fetch (TileId.mk 1 2 3)
        none).request (TileId.mk 1 2 3)).1 = none) ∧
    (((((Tiles.new 8).request (TileId.mk 1 2 3)).2.complete_fetch (TileId.mk 1 2 3)
        none).request (TileId.mk 1 2 3)).2
      = ((Tiles.new 8).request (TileId.mk 1 2 3)).2.complete_fetch (TileId.mk 1 2 3) none) :=
  failed_fetch_recorded _ (TileId.mk 1 2 3)
    (Tiles.Reachable.request (Tiles.new 8) (TileId.mk 1 2 3) (Tiles.Reachable.new 8))
    (by decide) (by decide)

/-- C1 witness: the round-trip law instantiated at the example's Wrocław
station position, zoom 14, with the bus-stop position as the reference. -/
theorem screen_to_position_screen_offset_witness :
    -85.05113 ≤ (Position.mk 17.03664 51.09916).y ∧
      (Position.mk 17.03664 51.09916).y ≤ 85.05113 ∧
      screen_to_position
        (screen_offset (Position.mk 17.03664 51.09916) 14 (Position.mk 17.03940 51.10005))
        14 (Position.mk 17.03940 51.10005) = Position.mk 17.03664 51.09916 :=
  ⟨by norm_num, by norm_num,
   screen_to_position_screen_offset (Position.mk 17.03664 51.09916)
     (Position.mk 17.03940 51.10005) 14 (by norm_num) (by norm_num)⟩
